import Mathlib

/-!
Verification of the BioSafe-ML statistical core against its specification.

The repository ships the interactive surface (`src/App.tsx` together with its
type declarations) but the statistical engine itself (`RandomForest` from
`./ml/engine` and `generateSyntheticData` from `./ml/dataGenerator`) is only
imported there, so the engine and the corpus generator are modelled from the
specification text, while the application-side feature encoding (`runML`)
is embedded directly from `src/App.tsx`.

Numeric values are embedded as rationals (`ℚ`); machine labels are naturals.
-/

namespace BioSafe

/-- Modelled from the spec: the error taxonomy of §7 (kinds, not type names);
the engine and generator fail fast with exactly these typed errors. -/
inductive MLError where
  | invalidTrainingData
  | invalidFeatureVector
  | modelNotTrained
  | invalidArgument
deriving DecidableEq

/-- A feature vector: ordered sequence of numeric values (valid when length 8). -/
abbrev FeatureVec := List ℚ

/-- A class label: integer risk tier, valid values 0 (Low), 1 (Medium), 2 (High). -/
abbrev Label := Nat

/-- Per-class occurrence counts over the three risk tiers. -/
@[ext] structure Counts where
  c0 : Nat
  c1 : Nat
  c2 : Nat
deriving DecidableEq

/-- Look up the count of class `j` (indices beyond 2 read the last slot). -/
def Counts.get : Counts → Nat → Nat
  | c, 0 => c.c0
  | c, 1 => c.c1
  | c, _ => c.c2

/-- Total number of counted examples. -/
def Counts.total (c : Counts) : Nat := c.c0 + c.c1 + c.c2

/-- Pointwise sum of two count vectors. -/
def Counts.add (c d : Counts) : Counts := ⟨c.c0 + d.c0, c.c1 + d.c1, c.c2 + d.c2⟩

/-- Modelled from the spec: per-label occurrence counts of a label sequence. -/
def countsOf : List Label → Counts
  | [] => ⟨0, 0, 0⟩
  | l :: ls =>
    let c := countsOf ls
    match l with
    | 0 => ⟨c.c0 + 1, c.c1, c.c2⟩
    | 1 => ⟨c.c0, c.c1 + 1, c.c2⟩
    | _ => ⟨c.c0, c.c1, c.c2 + 1⟩

/-- Modelled from the spec (§4.2): argmax of the class counts with ties broken
toward the higher risk tier. -/
def argmaxHigh (c : Counts) : Label :=
  if c.c1 ≤ c.c2 ∧ c.c0 ≤ c.c2 then 2
  else if c.c0 ≤ c.c1 then 1
  else 0

/-- Modelled from the spec (§4.1): Gini impurity `1 - Σ p_c²` over the three
label classes, computed from class proportions (0 on an empty subset). -/
def gini (c : Counts) : ℚ :=
  let n : ℚ := (c.total : ℚ)
  if n = 0 then 0
  else 1 - (((c.c0 : ℚ) / n) ^ 2 + ((c.c1 : ℚ) / n) ^ 2 + ((c.c2 : ℚ) / n) ^ 2)

/-- A labeled training example. -/
abbrev Example := FeatureVec × Label

/-- Value of feature `i` of a vector (0 when out of range). -/
def featVal (v : FeatureVec) (i : Nat) : ℚ := v.getD i 0

/-- Class counts of a set of examples. -/
def classCounts (exs : List Example) : Counts := countsOf (exs.map Prod.snd)

/-- Modelled from the spec (§4.1): examples routed left by a split
(feature value ≤ threshold). -/
def splitLeft (exs : List Example) (fi : Nat) (thr : ℚ) : List Example :=
  exs.filter (fun e => featVal e.1 fi ≤ thr)

/-- Modelled from the spec (§4.1): examples routed right by a split
(feature value > threshold). -/
def splitRight (exs : List Example) (fi : Nat) (thr : ℚ) : List Example :=
  exs.filter (fun e => thr < featVal e.1 fi)

/-- Modelled from the spec (§4.1): impurity decrease of a candidate split
versus the parent: `parent − (|L|/|P|·gini L + |R|/|P|·gini R)`. -/
def impurityDecrease (exs : List Example) (fi : Nat) (thr : ℚ) : ℚ :=
  let l := splitLeft exs fi thr
  let r := splitRight exs fi thr
  let n : ℚ := (exs.length : ℚ)
  gini (classCounts exs) -
    (((l.length : ℚ) / n) * gini (classCounts l) +
     ((r.length : ℚ) / n) * gini (classCounts r))

/-- Modelled from the spec (§9): the explicit, injectable, seedable random
source threaded through generation, bootstrap sampling and feature-subset
selection. -/
structure RandomSource where
  seed : Nat
deriving DecidableEq

/-- One step of the linear-congruential random source. -/
def RandomSource.next (r : RandomSource) : Nat × RandomSource :=
  let s := (r.seed * 1103515245 + 12345) % 2147483648
  (s, ⟨s⟩)

/-- Draw a uniform value below `n` (0 when `n = 0`). -/
def RandomSource.below (r : RandomSource) (n : Nat) : Nat × RandomSource :=
  let p := r.next
  (if n = 0 then 0 else p.1 % n, p.2)

/-- Modelled from the spec (§3): a decision tree node — a tagged variant of
`Leaf{classCounts, majorityLabel}` or `Split{featureIndex, threshold, left, right}`. -/
inductive Tree where
  | leaf (classCounts : Counts) (majorityLabel : Label)
  | split (featureIndex : Nat) (threshold : ℚ) (left right : Tree)
deriving DecidableEq

/-- Insert a value into a sorted list of rationals. -/
def insertSorted (x : ℚ) : List ℚ → List ℚ
  | [] => [x]
  | y :: ys => if x ≤ y then x :: y :: ys else y :: insertSorted x ys

/-- Sort a list of rationals (insertion sort). -/
def sortVals (l : List ℚ) : List ℚ := l.foldr insertSorted []

/-- Collapse adjacent duplicates of a (sorted) list. -/
def dedupAdj : List ℚ → List ℚ
  | [] => []
  | [x] => [x]
  | x :: y :: ys => if x = y then dedupAdj (y :: ys) else x :: dedupAdj (y :: ys)

/-- Midpoints between consecutive elements of a list. -/
def midpoints : List ℚ → List ℚ
  | x :: y :: ys => (x + y) / 2 :: midpoints (y :: ys)
  | _ => []

/-- Modelled from the spec (§4.1): candidate thresholds for a feature are the
midpoints between consecutive distinct sorted values of that feature among the
node's examples. -/
def candidateThresholds (exs : List Example) (fi : Nat) : List ℚ :=
  midpoints (dedupAdj (sortVals (exs.map (fun e => featVal e.1 fi))))

/-- A candidate split: (feature index, threshold, impurity decrease). -/
abbrev Candidate := Nat × ℚ × ℚ

/-- All candidate splits over a sampled feature subset, each scored by its
impurity decrease. -/
def candidates (exs : List Example) (subset : List Nat) : List Candidate :=
  subset.foldr
    (fun fi acc =>
      ((candidateThresholds exs fi).map (fun thr => (fi, thr, impurityDecrease exs fi thr))) ++ acc)
    []

/-- Modelled from the spec (§4.2): `a` strictly beats `b` when its decrease is
larger, or on equal decrease when its feature index is lower, or on equal
feature when its threshold is lower. -/
def betterSplit (a b : Candidate) : Bool :=
  decide (b.2.2 < a.2.2 ∨ (a.2.2 = b.2.2 ∧ (a.1 < b.1 ∨ (a.1 = b.1 ∧ a.2.1 < b.2.1))))

/-- Keep the better of an accumulator and a new candidate. -/
def pickBetter (acc : Option Candidate) (c : Candidate) : Option Candidate :=
  match acc with
  | none => some c
  | some b => if betterSplit c b then some c else some b

/-- Modelled from the spec (§4.2): the single candidate with the globally
largest impurity decrease, ties broken by lowest feature index then lowest
threshold. -/
def bestSplit (cands : List Candidate) : Option Candidate :=
  cands.foldl pickBetter none

/-- Draw `k` elements without replacement from an availability pool. -/
def pickDistinct : Nat → List Nat → RandomSource → List Nat × RandomSource
  | 0, _, r => ([], r)
  | _ + 1, [], r => ([], r)
  | k + 1, avail, r =>
    let p := r.below avail.length
    let x := avail.getD p.1 0
    let q := pickDistinct k (avail.eraseIdx p.1) p.2
    (x :: q.1, q.2)

/-- Modelled from the spec (§4.2): a random subset of `round(sqrt 8) = 3`
feature indices drawn without replacement from the 8 slots. -/
def featureSubset (r : RandomSource) : List Nat × RandomSource :=
  pickDistinct 3 [0, 1, 2, 3, 4, 5, 6, 7] r

/-- A node is pure when a single label is present. -/
def isPure (exs : List Example) : Bool :=
  let c := classCounts exs
  decide ((if 0 < c.c0 then 1 else 0) + (if 0 < c.c1 then 1 else 0) +
          (if 0 < c.c2 then 1 else 0) ≤ 1)

/-- Modelled from the spec (§4.2): stop when the node is pure or has fewer
than `minSamplesSplit = 2` examples (depth exhaustion is the fuel). -/
def shouldStop (exs : List Example) : Bool :=
  isPure exs || decide (exs.length < 2)

/-- Emit a leaf over a set of examples: per-label counts plus the majority
label with the conservative tie-break. -/
def mkLeaf (exs : List Example) : Tree :=
  Tree.leaf (classCounts exs) (argmaxHigh (classCounts exs))

/-- The all-zero length-8 importance vector. -/
def zeroVec : List ℚ := List.replicate 8 0

/-- Pointwise sum of two importance vectors. -/
def addVec (a b : List ℚ) : List ℚ := List.zipWith (· + ·) a b

/-- Add `x` into slot `i` of an importance vector. -/
def bumpAt (v : List ℚ) (i : Nat) (x : ℚ) : List ℚ := v.set i (v.getD i 0 + x)

/-- Modelled from the spec (§4.2): recursively partition a set of examples
into a decision tree, returning the tree, the per-tree importance accumulator
(split decreases weighted by `|examples| / totalN`) and the advanced random
source.  The fuel argument encodes `maxDepth − depth` (maxDepth = 10). -/
def buildTree : Nat → Nat → List Example → RandomSource → Tree × List ℚ × RandomSource
  | 0, _, exs, r => (mkLeaf exs, zeroVec, r)
  | fuel + 1, totalN, exs, r =>
    if shouldStop exs then (mkLeaf exs, zeroVec, r)
    else
      let ps := featureSubset r
      match bestSplit (candidates exs ps.1) with
      | none => (mkLeaf exs, zeroVec, ps.2)
      | some (fi, thr, dec) =>
        let l := splitLeft exs fi thr
        let rt := splitRight exs fi thr
        if l.isEmpty || rt.isEmpty then (mkLeaf exs, zeroVec, ps.2)
        else
          let bl := buildTree fuel totalN l ps.2
          let br := buildTree fuel totalN rt bl.2.2
          (Tree.split fi thr bl.1 br.1,
           bumpAt (addVec bl.2.1 br.2.1) fi (dec * (exs.length : ℚ) / (totalN : ℚ)),
           br.2.2)

/-- Modelled from the spec (§4.3): draw `k` bootstrap indices uniformly with
replacement from `[0, n)`. -/
def bootstrapIndices (n : Nat) : Nat → RandomSource → List Nat × RandomSource
  | 0, r => ([], r)
  | k + 1, r =>
    let p := r.below n
    let q := bootstrapIndices n k p.2
    (p.1 :: q.1, q.2)

/-- Assemble the examples named by a list of indices. -/
def sampleExamples (features : List FeatureVec) (labels : List Label) (idxs : List Nat) :
    List Example :=
  idxs.map (fun i => (features.getD i [], labels.getD i 0))

/-- Modelled from the spec (§4.3): build `k` trees, each on a fresh bootstrap
sample, accumulating the per-tree importance vectors into a running total. -/
def trainLoop (features : List FeatureVec) (labels : List Label) :
    Nat → RandomSource → List Tree × List ℚ × RandomSource
  | 0, r => ([], zeroVec, r)
  | k + 1, r =>
    let pb := bootstrapIndices features.length features.length r
    let sample := sampleExamples features labels pb.1
    let bt := buildTree 10 features.length sample pb.2
    let rest := trainLoop features labels k bt.2.2
    (bt.1 :: rest.1, addVec bt.2.1 rest.2.1, rest.2.2)

/-- Modelled from the spec (§4.3): normalize the total importance vector to
sum to 1, leaving the zero vector untouched in the degenerate case. -/
def normalize (v : List ℚ) : List ℚ :=
  let s := v.sum
  if s = 0 then v else v.map (· / s)

/-- Modelled from the spec (§3, §6): the forest — a configured tree count, an
ordered sequence of trained tree roots and a length-8 feature-importance
vector; created empty/untrained. -/
structure RandomForest where
  treeCount : Nat
  trees : List Tree
  featureImportance : List ℚ
deriving DecidableEq

/-- Modelled from the spec (§6): `Forest(treeCount)` constructor — an
untrained forest with an all-zero importance vector. -/
def mkForest (treeCount : Nat) : RandomForest := ⟨treeCount, [], zeroVec⟩

/-- Modelled from the spec (§4.3): training-data validity — equal positive
lengths and every feature vector of length 8. -/
def validTrainingData (features : List FeatureVec) (labels : List Label) : Prop :=
  features.length = labels.length ∧ 0 < features.length ∧ ∀ v ∈ features, v.length = 8

instance (features : List FeatureVec) (labels : List Label) :
    Decidable (validTrainingData features labels) := by
  unfold validTrainingData; infer_instance

/-- Modelled from the spec (§4.3): `train` — validate, build `treeCount`
bootstrap trees, and atomically produce the new forest with the normalized
importance total; otherwise fail with `InvalidTrainingDataError`. -/
def RandomForest.train (f : RandomForest) (features : List FeatureVec)
    (labels : List Label) (r : RandomSource) : Except MLError RandomForest :=
  if validTrainingData features labels then
    let res := trainLoop features labels f.treeCount r
    .ok ⟨f.treeCount, res.1, normalize res.2.1⟩
  else .error .invalidTrainingData

/-- The caller-observable state transition of `train`: on success the forest
is replaced wholesale, on failure the prior forest is kept. -/
def trainUpdate (f : RandomForest) (features : List FeatureVec)
    (labels : List Label) (r : RandomSource) : Except MLError Unit × RandomForest :=
  match f.train features labels r with
  | .ok f' => (.ok (), f')
  | .error e => (.error e, f)

/-- Modelled from the spec (§4.3): one tree's vote — traverse from the root,
going left when `featureVector[featureIndex] ≤ threshold`, to a leaf's
majority label. -/
def Tree.vote : Tree → FeatureVec → Label
  | .leaf _ m, _ => m
  | .split fi thr l r, v => if featVal v fi ≤ thr then l.vote v else r.vote v

/-- Per-label vote counts of the forest's trees on a vector. -/
def voteCounts (f : RandomForest) (v : FeatureVec) : Counts :=
  countsOf (f.trees.map (fun t => t.vote v))

/-- Modelled from the spec (§4.3): `predict` — length-8 precondition, trained
precondition, then the label with the most tree votes (ties toward the higher
risk tier). -/
def RandomForest.predict (f : RandomForest) (v : FeatureVec) : Except MLError Label :=
  if v.length ≠ 8 then .error .invalidFeatureVector
  else if f.trees.isEmpty then .error .modelNotTrained
  else .ok (argmaxHigh (voteCounts f v))

/-- Modelled from the spec (§4.3): `predictProbability` — same preconditions;
the fraction of trees voting for the predicted label. -/
def RandomForest.predictProbability (f : RandomForest) (v : FeatureVec) :
    Except MLError ℚ :=
  if v.length ≠ 8 then .error .invalidFeatureVector
  else if f.trees.isEmpty then .error .modelNotTrained
  else .ok (((voteCounts f v).get (argmaxHigh (voteCounts f v)) : ℚ) / (f.trees.length : ℚ))

/-- A sequence of repeated read-only calls against a fixed forest, threading
the forest state through so that mutation (if any) would be observable. -/
def predictSession (f : RandomForest) (v : FeatureVec) :
    Nat → List (Except MLError Label × Except MLError ℚ) × RandomForest
  | 0 => ([], f)
  | n + 1 =>
    let res := (f.predict v, f.predictProbability v)
    let rest := predictSession f v n
    (res :: rest.1, rest.2)

/-- Modelled from the spec (§4.4): the deterministic base risk score — a
weighted sum of rule contributions over the raw (un-normalized) draws. -/
def riskScore (catIdx doseIdx age weight bpIdx freq life : Nat) : ℚ :=
  (if 65 < age then 2 else 0) +
  (if weight < 55 then 3 / 2 else 0) +
  (doseIdx : ℚ) +
  (if 1 ≤ bpIdx then (if catIdx = 5 then 2 else 1) else 0) +
  (if catIdx = 0 ∨ catIdx = 4 then 1 else 1 / 2) +
  (freq : ℚ) * (1 / 5) + (life : ℚ) * (3 / 10)

/-- Modelled from the spec (§4.4): draw one synthetic example — uniform draws
per slot, age and weight stored normalized (age/100, weight/150), a noised
risk score thresholded into the three tiers by two fixed cutpoints. -/
def genExample (r0 : RandomSource) : FeatureVec × Label × RandomSource :=
  let p1 := r0.below 6
  let catIdx := p1.1
  let p2 := p1.2.below 3
  let doseIdx := p2.1
  let p3 := p2.2.below 96
  let age := 5 + p3.1
  let p4 := p3.2.below 121
  let weight := 30 + p4.1
  let p5 := p4.2.below 3
  let sexIdx := p5.1
  let p6 := p5.2.below 3
  let bpIdx := p6.1
  let p7 := p6.2.below 10
  let freq := 1 + p7.1
  let p8 := p7.2.below 6
  let life := p8.1
  let p9 := p8.2.below 201
  let noise : ℚ := ((p9.1 : ℚ) - 100) / 100
  let score := riskScore catIdx doseIdx age weight bpIdx freq life + noise
  let v : FeatureVec :=
    [(catIdx : ℚ), (doseIdx : ℚ), (age : ℚ) / 100, (weight : ℚ) / 150,
     (sexIdx : ℚ), (bpIdx : ℚ), (freq : ℚ), (life : ℚ)]
  let lab : Label := if score < 4 then 0 else if score < 6 then 1 else 2
  (v, lab, p9.2)

/-- Draw `n` synthetic examples, threading the random source. -/
def genLoop : Nat → RandomSource → List FeatureVec × List Label × RandomSource
  | 0, r => ([], [], r)
  | n + 1, r =>
    let e := genExample r
    let rest := genLoop n e.2.2
    (e.1 :: rest.1, e.2.1 :: rest.2.1, rest.2.2)

/-- Modelled from the spec (§4.4): `generate(count)` — fails with
`InvalidArgumentError` for negative counts, otherwise produces index-aligned
features and labels sequences of length `count`. -/
def generate (count : Int) (r : RandomSource) :
    Except MLError (List FeatureVec × List Label) :=
  if count < 0 then .error .invalidArgument
  else
    let g := genLoop count.toNat r
    .ok (g.1, g.2.1)

/-- Drug categories, in the declaration order of `types.ts` (the order
`Object.values` reports for `indexOf`). -/
inductive DrugCategory where
  | antibiotic | painkiller | statin | antihistamine | antidepressant | betaBlocker
deriving DecidableEq

/-- `Object.values(DrugCategory).indexOf` of a member. -/
def DrugCategory.index : DrugCategory → Nat
  | .antibiotic => 0
  | .painkiller => 1
  | .statin => 2
  | .antihistamine => 3
  | .antidepressant => 4
  | .betaBlocker => 5

/-- Biological sexes, in the declaration order of `types.ts`. -/
inductive BiologicalSex where
  | male | female | other
deriving DecidableEq

/-- `Object.values(BiologicalSex).indexOf` of a member. -/
def BiologicalSex.index : BiologicalSex → Nat
  | .male => 0
  | .female => 1
  | .other => 2

/-- Blood-pressure statuses, in the declaration order of `types.ts`. -/
inductive BPStatus where
  | normal | elevated | high
deriving DecidableEq

/-- `Object.values(BPStatus).indexOf` of a member. -/
def BPStatus.index : BPStatus → Nat
  | .normal => 0
  | .elevated => 1
  | .high => 2

/-- Dosage levels, in the declaration order of `types.ts`. -/
inductive DosageLevel where
  | low | medium | high
deriving DecidableEq

/-- `Object.values(DosageLevel).indexOf` of a member. -/
def DosageLevel.index : DosageLevel → Nat
  | .low => 0
  | .medium => 1
  | .high => 2

/-- The patient profile state of `App.tsx` (fields used by `runML`, plus the
free-text fields it ignores). -/
structure PatientProfile where
  drugCategory : DrugCategory
  dosageLevel : DosageLevel
  age : ℚ
  weight : ℚ
  sex : BiologicalSex
  bpStatus : BPStatus
  frequencyPerDay : ℚ
  lifestyleFactors : List String
  allergies : String
  specificConditions : String

/-- The literal feature array `runML` constructs in `App.tsx` (lines 110-120):
`[category index, dosage index, age/100, weight/150, sex index, BP index,
frequency, lifestyle-factor count]`. -/
def featureVectorOf (p : PatientProfile) (d : DosageLevel) (f : ℚ) : FeatureVec :=
  [((p.drugCategory.index : Nat) : ℚ), ((d.index : Nat) : ℚ), p.age / 100,
   p.weight / 150, ((p.sex.index : Nat) : ℚ), ((p.bpStatus.index : Nat) : ℚ),
   f, ((p.lifestyleFactors.length : Nat) : ℚ)]

/-- The `runML` helper of `App.tsx`: feed the constructed vector to both
`predict` and `predictProbability` of the current model. -/
def runML (model : RandomForest) (p : PatientProfile) (d : DosageLevel) (f : ℚ) :
    Except MLError Label × Except MLError ℚ :=
  (model.predict (featureVectorOf p d f),
   model.predictProbability (featureVectorOf p d f))

/-- `t.leafIn cc m` holds when some leaf of `t` carries class counts `cc`
and majority label `m`. -/
def Tree.leafIn : Tree → Counts → Label → Prop
  | .leaf cc m, cc', m' => cc = cc' ∧ m = m'
  | .split _ _ l r, cc', m' => l.leafIn cc' m' ∨ r.leafIn cc' m'

/-- A tiny trained forest fixture: one tree that is a pure leaf. -/
def leafForest : RandomForest := ⟨1, [Tree.leaf ⟨1, 0, 0⟩ 0], zeroVec⟩

/-- The all-zero length-8 feature vector fixture. -/
def vec8 : FeatureVec := List.replicate 8 0

/-- A one-example training-feature fixture. -/
def wFeatures : List FeatureVec := [vec8]

/-- The matching one-label training fixture. -/
def wLabels : List Label := [0]

/-- The forest produced by `(mkForest 1).train wFeatures wLabels ⟨0⟩`:
the single bootstrap sample is pure, so the tree is a single leaf and the
importance total stays zero. -/
def trainedForest : RandomForest := ⟨1, [Tree.leaf ⟨1, 0, 0⟩ 0], zeroVec⟩

/-- A concrete patient-profile fixture (the `App.tsx` initial state). -/
def sampleProfile : PatientProfile :=
  ⟨.painkiller, .medium, 35, 70, .male, .normal, 1, [], "", ""⟩

theorem countsOf_total (ls : List Label) : (countsOf ls).total = ls.length := by
  induction ls with
  | nil => rfl
  | cons l ls ih =>
    rcases l with _ | _ | l <;> simp [countsOf, Counts.total] <;>
      simp [Counts.total] at ih <;> omega

theorem classCounts_total (exs : List Example) : (classCounts exs).total = exs.length := by
  simp [classCounts, countsOf_total]

theorem Counts.get_le_total (c : Counts) (j : Nat) : c.get j ≤ c.total := by
  rcases j with _ | _ | j <;> simp [Counts.get, Counts.total] <;> omega

theorem argmaxHigh_le_two (c : Counts) : argmaxHigh c ≤ 2 := by
  unfold argmaxHigh; split_ifs <;> decide

theorem Counts.get_zero (c : Counts) : c.get 0 = c.c0 := rfl

theorem Counts.get_one (c : Counts) : c.get 1 = c.c1 := rfl

theorem Counts.get_two (c : Counts) : c.get 2 = c.c2 := rfl

theorem argmaxHigh_spec (c : Counts) (j : Nat) (hj : j ≤ 2) :
    c.get j ≤ c.get (argmaxHigh c) ∧
      (c.get j = c.get (argmaxHigh c) → j ≤ argmaxHigh c) := by
  unfold argmaxHigh
  split_ifs with h1 h2 <;> interval_cases j <;>
    refine ⟨?_, fun hEq => ?_⟩ <;>
      simp only [Counts.get_zero, Counts.get_one, Counts.get_two] at * <;> omega

theorem voteCounts_total (f : RandomForest) (v : FeatureVec) :
    (voteCounts f v).total = f.trees.length := by
  simp [voteCounts, countsOf_total]

/-- C1: for every length-8 feature vector and every trained forest, `predict`
returns a label in {0, 1, 2} and `predictProbability` returns a value in the
closed interval [0, 1]. -/
theorem predict_and_probability_in_range (f : RandomForest) (v : FeatureVec)
    (h8 : v.length = 8) (ht : f.trees ≠ []) :
    (∃ l, f.predict v = .ok l ∧ l ≤ 2) ∧
      (∃ p, f.predictProbability v = .ok p ∧ 0 ≤ p ∧ p ≤ 1) := by
  have hne : f.trees.isEmpty = false := by simpa [List.isEmpty_iff] using ht
  have hlen : 0 < f.trees.length := List.length_pos.mpr ht
  have hp : f.predict v = .ok (argmaxHigh (voteCounts f v)) := by
    simp [RandomForest.predict, h8, hne]
  have hq : f.predictProbability v =
      .ok (((voteCounts f v).get (argmaxHigh (voteCounts f v)) : ℚ) /
        (f.trees.length : ℚ)) := by
    simp [RandomForest.predictProbability, h8, hne]
  refine ⟨⟨_, hp, argmaxHigh_le_two _⟩, ⟨_, hq, by positivity, ?_⟩⟩
  rw [div_le_one (by exact_mod_cast hlen)]
  have := Counts.get_le_total (voteCounts f v) (argmaxHigh (voteCounts f v))
  rw [voteCounts_total] at this
  exact_mod_cast this

/-- C1 witness at a concrete trained forest and vector. -/
theorem predict_and_probability_in_range_witness :
    (∃ l, leafForest.predict vec8 = .ok l ∧ l ≤ 2) ∧
      (∃ p, leafForest.predictProbability vec8 = .ok p ∧ 0 ≤ p ∧ p ≤ 1) :=
  predict_and_probability_in_range leafForest vec8 (by simp [vec8])
    (by simp [leafForest])

/-- C2: `predict` and `predictProbability` fail with
`InvalidFeatureVectorError` on any vector whose length is not 8, fail with
`ModelNotTrainedError` on a length-8 vector when no successful train has
occurred (trees empty), and succeed on a length-8 vector against a trained
forest. -/
theorem predict_error_contract (f : RandomForest) (v : FeatureVec) :
    (v.length ≠ 8 →
      f.predict v = .error .invalidFeatureVector ∧
        f.predictProbability v = .error .invalidFeatureVector) ∧
    (v.length = 8 → f.trees = [] →
      f.predict v = .error .modelNotTrained ∧
        f.predictProbability v = .error .modelNotTrained) ∧
    (v.length = 8 → f.trees ≠ [] →
      (∃ l, f.predict v = .ok l) ∧ ∃ p, f.predictProbability v = .ok p) := by
  refine ⟨fun hne => ?_, fun h8 hemp => ?_, fun h8 ht => ?_⟩
  · simp [RandomForest.predict, RandomForest.predictProbability, hne]
  · simp [RandomForest.predict, RandomForest.predictProbability, h8, hemp]
  · have hne : f.trees.isEmpty = false := by simpa [List.isEmpty_iff] using ht
    exact ⟨⟨argmaxHigh (voteCounts f v), by simp [RandomForest.predict, h8, hne]⟩,
      ⟨((voteCounts f v).get (argmaxHigh (voteCounts f v)) : ℚ) / (f.trees.length : ℚ),
        by simp [RandomForest.predictProbability, h8, hne]⟩⟩

/-- C2 witness: an untrained forest on a valid-length vector reports
`ModelNotTrainedError`. -/
theorem predict_error_contract_witness :
    (mkForest 1).predict vec8 = .error .modelNotTrained ∧
      (mkForest 1).predictProbability vec8 = .error .modelNotTrained :=
  (predict_error_contract (mkForest 1) vec8).2.1 (by simp [vec8]) rfl

/-- C9: `predict`/`predictProbability` are read-only — a session of repeated
calls on the same forest and vector leaves the forest unchanged and every
call returns the same result. -/
theorem predict_read_only (f : RandomForest) (v : FeatureVec) (n : Nat) :
    (predictSession f v n).2 = f ∧
      ∀ out ∈ (predictSession f v n).1,
        out = (f.predict v, f.predictProbability v) := by
  induction n with
  | zero => simp [predictSession]
  | succ n ih =>
    refine ⟨by simp [predictSession, ih.1], ?_⟩
    intro out hout
    have hmem : out = (f.predict v, f.predictProbability v) ∨
        out ∈ (predictSession f v n).1 := by
      simpa [predictSession] using hout
    rcases hmem with h | h
    · exact h
    · exact ih.2 out h

/-- C9 witness at a concrete forest, vector and session length. -/
theorem predict_read_only_witness :
    (predictSession leafForest vec8 2).2 = leafForest ∧
      (leafForest.predict vec8, leafForest.predictProbability vec8) =
        (leafForest.predict vec8, leafForest.predictProbability vec8) :=
  ⟨(predict_read_only leafForest vec8 2).1,
    (predict_read_only leafForest vec8 2).2 _ (by simp [predictSession])⟩

/-- C10: for every patient profile, dosage and frequency, the vector `runML`
builds is the literal 8-slot array in the order [drug-category index, dosage
index, age/100, weight/150, sex index, BP index, frequency, lifestyle count],
so the wrong-length error branch of `predict`/`predictProbability` is
unreachable from the application. -/
theorem runML_length_safe (m : RandomForest) (p : PatientProfile)
    (d : DosageLevel) (fr : ℚ) :
    featureVectorOf p d fr =
      [((p.drugCategory.index : Nat) : ℚ), ((d.index : Nat) : ℚ), p.age / 100,
       p.weight / 150, ((p.sex.index : Nat) : ℚ), ((p.bpStatus.index : Nat) : ℚ),
       fr, ((p.lifestyleFactors.length : Nat) : ℚ)] ∧
    (featureVectorOf p d fr).length = 8 ∧
    (runML m p d fr).1 ≠ .error .invalidFeatureVector ∧
    (runML m p d fr).2 ≠ .error .invalidFeatureVector := by
  refine ⟨rfl, rfl, ?_, ?_⟩ <;>
    by_cases he : m.trees.isEmpty <;>
      simp [runML, RandomForest.predict, RandomForest.predictProbability,
        featureVectorOf, he]

/-- C10 witness at the concrete initial profile of the application. -/
theorem runML_length_safe_witness :
    (runML (mkForest 40) sampleProfile .medium 1).1 ≠ .error .invalidFeatureVector :=
  (runML_length_safe (mkForest 40) sampleProfile .medium 1).2.2.1

theorem leafIn_mkLeaf {exs : List Example} {cc : Counts} {m : Label}
    (h : Tree.leafIn (mkLeaf exs) cc m) : m = argmaxHigh cc := by
  obtain ⟨h1, h2⟩ : classCounts exs = cc ∧ argmaxHigh (classCounts exs) = m := h
  rw [← h2, h1]

theorem buildTree_leafIn (fuel : Nat) :
    ∀ (totalN : Nat) (exs : List Example) (r : RandomSource) (cc : Counts) (m : Label),
      Tree.leafIn (buildTree fuel totalN exs r).1 cc m → m = argmaxHigh cc := by
  induction fuel with
  | zero =>
    intro totalN exs r cc m h
    simp only [buildTree] at h
    exact leafIn_mkLeaf h
  | succ fuel ih =>
    intro totalN exs r cc m h
    by_cases hs : shouldStop exs
    · simp only [buildTree, hs, if_true] at h
      exact leafIn_mkLeaf h
    · simp only [buildTree, hs, Bool.false_eq_true, if_false] at h
      rcases hb : bestSplit (candidates exs (featureSubset r).1) with _ | ⟨fi, thr, dec⟩
      · rw [hb] at h
        exact leafIn_mkLeaf h
      · rw [hb] at h
        by_cases he : (splitLeft exs fi thr).isEmpty || (splitRight exs fi thr).isEmpty
        · simp only [he, if_true] at h
          exact leafIn_mkLeaf h
        · simp only [he, Bool.false_eq_true, if_false] at h
          rcases h with h | h
          · exact ih _ _ _ _ _ h
          · exact ih _ _ _ _ _ h

/-- C5: ties break toward the higher risk tier at both levels — the leaf
majority label of every tree a build produces is the argmax of its class
counts with high-tie preference, and the ensemble's prediction is the label
with the most tree votes with the same high-tie preference. -/
theorem tie_break_toward_higher_risk :
    (∀ (c : Counts) (j : Nat), j ≤ 2 →
      c.get j ≤ c.get (argmaxHigh c) ∧
        (c.get j = c.get (argmaxHigh c) → j ≤ argmaxHigh c)) ∧
    (∀ (fuel totalN : Nat) (exs : List Example) (r : RandomSource) (cc : Counts)
      (m : Label), Tree.leafIn (buildTree fuel totalN exs r).1 cc m →
        m = argmaxHigh cc) ∧
    (∀ (f : RandomForest) (v : FeatureVec) (l : Label), f.predict v = .ok l →
      ∀ j ≤ 2, (voteCounts f v).get j ≤ (voteCounts f v).get l ∧
        ((voteCounts f v).get j = (voteCounts f v).get l → j ≤ l)) := by
  refine ⟨argmaxHigh_spec, buildTree_leafIn, ?_⟩
  intro f v l hp j hj
  have hl : l = argmaxHigh (voteCounts f v) := by
    by_cases h8 : v.length = 8
    · by_cases he : f.trees.isEmpty
      · simp [RandomForest.predict, h8, he] at hp
      · simp [RandomForest.predict, h8, he] at hp
        exact hp.symm
    · simp [RandomForest.predict, h8] at hp
  rw [hl]
  exact argmaxHigh_spec (voteCounts f v) j hj

/-- C5 witness: a concrete tied count vector resolves upward, and the
concrete leaf forest's prediction dominates every label's vote count. -/
theorem tie_break_toward_higher_risk_witness :
    ((⟨2, 1, 2⟩ : Counts).get 0 ≤ (⟨2, 1, 2⟩ : Counts).get (argmaxHigh ⟨2, 1, 2⟩) ∧
      ((⟨2, 1, 2⟩ : Counts).get 0 = (⟨2, 1, 2⟩ : Counts).get (argmaxHigh ⟨2, 1, 2⟩) →
        0 ≤ argmaxHigh ⟨2, 1, 2⟩)) ∧
    ((voteCounts leafForest vec8).get 1 ≤ (voteCounts leafForest vec8).get 0 ∧
      ((voteCounts leafForest vec8).get 1 = (voteCounts leafForest vec8).get 0 →
        1 ≤ 0)) :=
  ⟨tie_break_toward_higher_risk.1 ⟨2, 1, 2⟩ 0 (by decide),
    tie_break_toward_higher_risk.2.2 leafForest vec8 0
      (by simp [RandomForest.predict, leafForest, vec8, voteCounts, countsOf,
        Tree.vote, argmaxHigh])
      1 (by decide)⟩

/-- C3: `train` fails with `InvalidTrainingDataError` exactly when the dataset
is empty, the features and labels lengths differ, or some feature vector does
not have length 8; and on any failure the prior forest state is unchanged. -/
theorem train_error_contract (f : RandomForest) (features : List FeatureVec)
    (labels : List Label) (r : RandomSource) :
    ((trainUpdate f features labels r).1 = .error .invalidTrainingData ↔
      (features = [] ∧ labels = []) ∨ features.length ≠ labels.length ∨
        ∃ v ∈ features, v.length ≠ 8) ∧
    ∀ e, (trainUpdate f features labels r).1 = .error e →
      (trainUpdate f features labels r).2 = f := by
  by_cases hv : validTrainingData features labels
  · have hok : (trainUpdate f features labels r).1 = .ok () := by
      unfold trainUpdate RandomForest.train
      rw [if_pos hv]
    obtain ⟨hA, hB, hC⟩ := hv
    refine ⟨?_, fun e he => ?_⟩
    · rw [hok]
      simp only [false_iff, reduceCtorEq]
      rintro (⟨hf, _⟩ | hne | ⟨v, hm, hv8⟩)
      · rw [hf] at hB; exact absurd hB (by simp)
      · exact hne hA
      · exact hv8 (hC v hm)
    · rw [hok] at he; exact absurd he (by simp)
  · have herr : f.train features labels r = .error .invalidTrainingData := by
      simp [RandomForest.train, hv]
    have hupd : trainUpdate f features labels r = (.error .invalidTrainingData, f) := by
      simp [trainUpdate, herr]
    refine ⟨?_, fun e _ => by simp [hupd]⟩
    rw [hupd]
    simp only [true_iff]
    by_cases hA : features.length = labels.length
    · by_cases hB : 0 < features.length
      · have hC : ¬∀ v ∈ features, v.length = 8 := by
          intro hC; exact hv ⟨hA, hB, hC⟩
        push_neg at hC
        exact Or.inr (Or.inr hC)
      · have hf : features = [] := by
          rw [← List.length_eq_zero]; omega
        have hl : labels = [] := by
          rw [← List.length_eq_zero, ← hA]; omega
        exact Or.inl ⟨hf, hl⟩
    · exact Or.inr (Or.inl hA)

/-- C3 witness: training on the empty dataset fails and keeps the untrained
forest unchanged. -/
theorem train_error_contract_witness :
    (trainUpdate (mkForest 1) [] [] ⟨0⟩).1 = .error .invalidTrainingData ∧
      (trainUpdate (mkForest 1) [] [] ⟨0⟩).2 = mkForest 1 := by
  have h := train_error_contract (mkForest 1) [] [] ⟨0⟩
  have h1 := h.1.mpr (Or.inl ⟨rfl, rfl⟩)
  exact ⟨h1, h.2 _ h1⟩

/-- C6: `generate 0` returns two empty sequences (not an error) and
`generate count` for negative `count` fails with `InvalidArgumentError`. -/
theorem generate_zero_and_negative :
    (∀ r, generate 0 r = .ok ([], [])) ∧
      ∀ (count : Int) (r : RandomSource), count < 0 →
        generate count r = .error .invalidArgument := by
  constructor
  · intro r; simp [generate, genLoop]
  · intro count r hneg; simp [generate, hneg]

/-- C6 witness at `count = -1`. -/
theorem generate_zero_and_negative_witness :
    generate (-1) ⟨0⟩ = .error .invalidArgument :=
  generate_zero_and_negative.2 (-1) ⟨0⟩ (by decide)

theorem below_lt (r : RandomSource) (n : Nat) (h : 0 < n) : (r.below n).1 < n := by
  have hne : n ≠ 0 := Nat.pos_iff_ne_zero.mp h
  simp only [RandomSource.below, hne, if_false]
  exact Nat.mod_lt _ h

theorem genExample_spec (r : RandomSource) :
    ∃ (catIdx doseIdx age weight sexIdx bpIdx freq life : Nat) (lab : Label)
      (r' : RandomSource),
      genExample r = ([(catIdx : ℚ), (doseIdx : ℚ), (age : ℚ) / 100,
        (weight : ℚ) / 150, (sexIdx : ℚ), (bpIdx : ℚ), (freq : ℚ), (life : ℚ)],
        lab, r') ∧
        5 ≤ age ∧ age ≤ 100 ∧ 30 ≤ weight ∧ weight ≤ 150 ∧ lab ≤ 2 := by
  refine ⟨_, _, _, _, _, _, _, _, _, _, rfl, ?_, ?_, ?_, ?_, ?_⟩
  · exact Nat.le_add_right 5 _
  · have := below_lt ((r.below 6).2.below 3).2 96 (by norm_num)
    omega
  · exact Nat.le_add_right 30 _
  · have := below_lt (((r.below 6).2.below 3).2.below 96).2 121 (by norm_num)
    omega
  · split_ifs <;> decide

theorem genLoop_spec (n : Nat) : ∀ r : RandomSource,
    (genLoop n r).1.length = n ∧ (genLoop n r).2.1.length = n ∧
      (∀ v ∈ (genLoop n r).1, v.length = 8 ∧
        (∃ age : Nat, 5 ≤ age ∧ age ≤ 100 ∧ v.getD 2 0 = (age : ℚ) / 100) ∧
        ∃ weight : Nat, 30 ≤ weight ∧ weight ≤ 150 ∧
          v.getD 3 0 = (weight : ℚ) / 150) ∧
      ∀ l ∈ (genLoop n r).2.1, l ≤ 2 := by
  induction n with
  | zero => intro r; simp [genLoop]
  | succ n ih =>
    intro r
    obtain ⟨c, d, age, w, s, b, fr, li, lab, r', heq, ha1, ha2, hw1, hw2, hl⟩ :=
      genExample_spec r
    obtain ⟨ih1, ih2, ih3, ih4⟩ := ih r'
    have h1 : genLoop (n + 1) r =
        ((genExample r).1 :: (genLoop n (genExample r).2.2).1,
         (genExample r).2.1 :: (genLoop n (genExample r).2.2).2.1,
         (genLoop n (genExample r).2.2).2.2) := rfl
    rw [heq] at h1
    rw [h1]
    refine ⟨by simpa using ih1, by simpa using ih2, ?_, ?_⟩
    · intro v hv
      rcases List.mem_cons.mp hv with hv | hv
      · subst hv
        refine ⟨rfl, ⟨age, ha1, ha2, ?_⟩, ⟨w, hw1, hw2, ?_⟩⟩ <;> rfl
      · exact ih3 v hv
    · intro l hlmem
      rcases List.mem_cons.mp hlmem with hh | hh
      · subst hh; exact hl
      · exact ih4 l hh

/-- C7: for every `count ≥ 0`, `generate` succeeds with index-aligned
features and labels sequences of length `count`, every feature vector has
exactly 8 entries with the age slot stored as age/100 (age drawn in [5,100])
and the weight slot stored as weight/150 (weight drawn in [30,150]), and
every label is in {0, 1, 2}. -/
theorem generate_output_contract (count : Int) (r : RandomSource)
    (h : 0 ≤ count) :
    ∃ features labels, generate count r = .ok (features, labels) ∧
      (features.length : Int) = count ∧ (labels.length : Int) = count ∧
      (∀ v ∈ features, v.length = 8 ∧
        (∃ age : Nat, 5 ≤ age ∧ age ≤ 100 ∧ v.getD 2 0 = (age : ℚ) / 100) ∧
        ∃ weight : Nat, 30 ≤ weight ∧ weight ≤ 150 ∧
          v.getD 3 0 = (weight : ℚ) / 150) ∧
      ∀ l ∈ labels, l ≤ 2 := by
  have hnlt : ¬count < 0 := not_lt.mpr h
  obtain ⟨h1, h2, h3, h4⟩ := genLoop_spec count.toNat r
  refine ⟨(genLoop count.toNat r).1, (genLoop count.toNat r).2.1, ?_, ?_, ?_, h3, h4⟩
  · simp [generate, hnlt]
  · rw [h1]; exact Int.toNat_of_nonneg h
  · rw [h2]; exact Int.toNat_of_nonneg h

/-- C7 witness at `count = 1` and seed 0. -/
theorem generate_output_contract_witness :
    ∃ features labels, generate 1 ⟨0⟩ = .ok (features, labels) ∧
      (features.length : Int) = 1 ∧ (labels.length : Int) = 1 ∧
      (∀ v ∈ features, v.length = 8 ∧
        (∃ age : Nat, 5 ≤ age ∧ age ≤ 100 ∧ v.getD 2 0 = (age : ℚ) / 100) ∧
        ∃ weight : Nat, 30 ≤ weight ∧ weight ≤ 150 ∧
          v.getD 3 0 = (weight : ℚ) / 150) ∧
      ∀ l ∈ labels, l ≤ 2 :=
  generate_output_contract 1 ⟨0⟩ (by decide)

theorem Counts.add_total (a b : Counts) : (a.add b).total = a.total + b.total := by
  simp only [Counts.add, Counts.total]; omega

theorem Counts.add_assoc' (a b c : Counts) : (a.add b).add c = a.add (b.add c) := by
  ext <;> simp [Counts.add] <;> omega

theorem Counts.add_left_comm' (a b c : Counts) :
    a.add (b.add c) = b.add (a.add c) := by
  ext <;> simp [Counts.add] <;> omega

theorem countsOf_cons_add (l : Label) (ls : List Label) :
    countsOf (l :: ls) = (countsOf [l]).add (countsOf ls) := by
  rcases l with _ | _ | l <;> ext <;> simp [countsOf, Counts.add] <;> omega

theorem classCounts_cons (e : Example) (exs : List Example) :
    classCounts (e :: exs) = (countsOf [e.2]).add (classCounts exs) := by
  simp only [classCounts, List.map_cons]
  exact countsOf_cons_add e.2 (exs.map Prod.snd)

theorem classCounts_partition (exs : List Example) (fi : Nat) (thr : ℚ) :
    classCounts exs =
      (classCounts (splitLeft exs fi thr)).add (classCounts (splitRight exs fi thr)) := by
  induction exs with
  | nil => ext <;> simp [classCounts, countsOf, splitLeft, splitRight, Counts.add]
  | cons e exs ih =>
    by_cases hp : featVal e.1 fi ≤ thr
    · have hL : splitLeft (e :: exs) fi thr = e :: splitLeft exs fi thr := by
        simp [splitLeft, List.filter_cons, hp]
      have hR : splitRight (e :: exs) fi thr = splitRight exs fi thr := by
        simp [splitRight, List.filter_cons, not_lt.mpr hp]
      rw [hL, hR, classCounts_cons, classCounts_cons, ih, Counts.add_assoc']
    · have hL : splitLeft (e :: exs) fi thr = splitLeft exs fi thr := by
        simp [splitLeft, List.filter_cons, hp]
      have hR : splitRight (e :: exs) fi thr = e :: splitRight exs fi thr := by
        simp [splitRight, List.filter_cons, not_le.mp hp]
      rw [hL, hR, classCounts_cons, classCounts_cons, ih, Counts.add_left_comm']

theorem split_length_sum (exs : List Example) (fi : Nat) (thr : ℚ) :
    (splitLeft exs fi thr).length + (splitRight exs fi thr).length = exs.length := by
  have h := congrArg Counts.total (classCounts_partition exs fi thr)
  rw [classCounts_total, Counts.add_total, classCounts_total, classCounts_total] at h
  omega

theorem sq_div_add_le (l r a b : ℚ) (ha : 0 < a) (hb : 0 < b) :
    (l + r) ^ 2 / (a + b) ≤ l ^ 2 / a + r ^ 2 / b := by
  rw [div_add_div _ _ (ne_of_gt ha) (ne_of_gt hb),
    div_le_div_iff₀ (by positivity) (by positivity)]
  nlinarith [sq_nonneg (l * b - r * a)]

theorem gini_total_mul (c : Counts) (h : c.total ≠ 0) :
    (c.total : ℚ) * gini c =
      (c.total : ℚ) -
        ((c.c0 : ℚ) ^ 2 + (c.c1 : ℚ) ^ 2 + (c.c2 : ℚ) ^ 2) / (c.total : ℚ) := by
  have hn : ((c.total : ℚ)) ≠ 0 := Nat.cast_ne_zero.mpr h
  simp only [gini]
  rw [if_neg hn]
  field_simp
  ring

theorem total_eq_zero_counts {c : Counts} (h : c.total = 0) : c = ⟨0, 0, 0⟩ := by
  have h0 : c.c0 = 0 ∧ c.c1 = 0 ∧ c.c2 = 0 := by
    unfold Counts.total at h; omega
  ext <;> simp [h0.1, h0.2.1, h0.2.2]

theorem gini_superadd (cl cr : Counts) :
    (cl.total : ℚ) * gini cl + (cr.total : ℚ) * gini cr ≤
      ((cl.add cr).total : ℚ) * gini (cl.add cr) := by
  by_cases hl : cl.total = 0
  · rw [total_eq_zero_counts hl]
    have hadd : (⟨0, 0, 0⟩ : Counts).add cr = cr := by ext <;> simp [Counts.add]
    rw [hadd]
    simp [Counts.total]
  · by_cases hr : cr.total = 0
    · rw [total_eq_zero_counts hr]
      have hadd : cl.add (⟨0, 0, 0⟩ : Counts) = cl := by ext <;> simp [Counts.add]
      rw [hadd]
      simp [Counts.total]
    · have hn : (cl.add cr).total ≠ 0 := by rw [Counts.add_total]; omega
      have ha : (0 : ℚ) < (cl.total : ℚ) :=
        Nat.cast_pos.mpr (Nat.pos_of_ne_zero hl)
      have hb : (0 : ℚ) < (cr.total : ℚ) :=
        Nat.cast_pos.mpr (Nat.pos_of_ne_zero hr)
      rw [gini_total_mul _ hl, gini_total_mul _ hr, gini_total_mul _ hn]
      have e0 : (((cl.add cr).c0 : ℚ)) = (cl.c0 : ℚ) + (cr.c0 : ℚ) := by
        simp [Counts.add]
      have e1 : (((cl.add cr).c1 : ℚ)) = (cl.c1 : ℚ) + (cr.c1 : ℚ) := by
        simp [Counts.add]
      have e2 : (((cl.add cr).c2 : ℚ)) = (cl.c2 : ℚ) + (cr.c2 : ℚ) := by
        simp [Counts.add]
      have et : (((cl.add cr).total : ℚ)) = (cl.total : ℚ) + (cr.total : ℚ) := by
        rw [Counts.add_total]; push_cast; ring
      rw [e0, e1, e2, et]
      have k0 := sq_div_add_le (cl.c0 : ℚ) (cr.c0 : ℚ) _ _ ha hb
      have k1 := sq_div_add_le (cl.c1 : ℚ) (cr.c1 : ℚ) _ _ ha hb
      have k2 := sq_div_add_le (cl.c2 : ℚ) (cr.c2 : ℚ) _ _ ha hb
      have hsplitL :
          (((cl.c0 : ℚ)) ^ 2 + ((cl.c1 : ℚ)) ^ 2 + ((cl.c2 : ℚ)) ^ 2) / (cl.total : ℚ) =
            ((cl.c0 : ℚ)) ^ 2 / (cl.total : ℚ) + ((cl.c1 : ℚ)) ^ 2 / (cl.total : ℚ) +
              ((cl.c2 : ℚ)) ^ 2 / (cl.total : ℚ) := by
        rw [add_div, add_div]
      have hsplitR :
          (((cr.c0 : ℚ)) ^ 2 + ((cr.c1 : ℚ)) ^ 2 + ((cr.c2 : ℚ)) ^ 2) / (cr.total : ℚ) =
            ((cr.c0 : ℚ)) ^ 2 / (cr.total : ℚ) + ((cr.c1 : ℚ)) ^ 2 / (cr.total : ℚ) +
              ((cr.c2 : ℚ)) ^ 2 / (cr.total : ℚ) := by
        rw [add_div, add_div]
      have hsplitP :
          (((cl.c0 : ℚ) + (cr.c0 : ℚ)) ^ 2 + ((cl.c1 : ℚ) + (cr.c1 : ℚ)) ^ 2 +
              ((cl.c2 : ℚ) + (cr.c2 : ℚ)) ^ 2) / ((cl.total : ℚ) + (cr.total : ℚ)) =
            ((cl.c0 : ℚ) + (cr.c0 : ℚ)) ^ 2 / ((cl.total : ℚ) + (cr.total : ℚ)) +
              ((cl.c1 : ℚ) + (cr.c1 : ℚ)) ^ 2 / ((cl.total : ℚ) + (cr.total : ℚ)) +
              ((cl.c2 : ℚ) + (cr.c2 : ℚ)) ^ 2 / ((cl.total : ℚ) + (cr.total : ℚ)) := by
        rw [add_div, add_div]
      rw [hsplitL, hsplitR, hsplitP]
      linarith [k0, k1, k2]

theorem impurityDecrease_nonneg (exs : List Example) (fi : Nat) (thr : ℚ)
    (hne : exs ≠ []) : 0 ≤ impurityDecrease exs fi thr := by
  have hkey := gini_superadd (classCounts (splitLeft exs fi thr))
    (classCounts (splitRight exs fi thr))
  rw [← classCounts_partition] at hkey
  rw [classCounts_total, classCounts_total, classCounts_total] at hkey
  have hn : (0 : ℚ) < ((exs.length : ℚ)) := by
    have := List.length_pos.mpr hne
    exact_mod_cast this
  simp only [impurityDecrease]
  rw [sub_nonneg, div_mul_eq_mul_div, div_mul_eq_mul_div, div_add_div_same,
    div_le_iff₀ hn]
  have hc : gini (classCounts exs) * ((exs.length : ℚ)) =
      ((exs.length : ℚ)) * gini (classCounts exs) := mul_comm _ _
  linarith [hkey]

theorem list_getD_nonneg : ∀ (v : List ℚ), (∀ x ∈ v, 0 ≤ x) → ∀ i, 0 ≤ v.getD i 0 := by
  intro v
  induction v with
  | nil => intro _ i; simp [List.getD]
  | cons a l ih =>
    intro h i
    rcases i with _ | i
    · simpa using h a (by simp)
    · simp only [List.getD_cons_succ]
      exact ih (fun x hx => h x (by simp [hx])) i

theorem mem_bumpAt {v : List ℚ} {i : Nat} {x y : ℚ} (h : y ∈ bumpAt v i x) :
    y ∈ v ∨ y = v.getD i 0 + x := by
  unfold bumpAt at h
  exact List.mem_or_eq_of_mem_set h

theorem bumpAt_length (v : List ℚ) (i : Nat) (x : ℚ) :
    (bumpAt v i x).length = v.length := by
  simp [bumpAt]

theorem addVec_nonneg : ∀ (a b : List ℚ), (∀ x ∈ a, 0 ≤ x) → (∀ x ∈ b, 0 ≤ x) →
    ∀ x ∈ addVec a b, 0 ≤ x := by
  intro a
  induction a with
  | nil => intro b _ _ x hx; simp [addVec] at hx
  | cons u us ih =>
    intro b ha hb x hx
    rcases b with _ | ⟨w, ws⟩
    · simp [addVec] at hx
    · simp only [addVec, List.zipWith_cons_cons] at hx
      rcases List.mem_cons.mp hx with h | h
      · subst h; exact add_nonneg (ha u (by simp)) (hb w (by simp))
      · exact ih ws (fun y hy => ha y (by simp [hy])) (fun y hy => hb y (by simp [hy])) x h

theorem addVec_length {a b : List ℚ} (ha : a.length = 8) (hb : b.length = 8) :
    (addVec a b).length = 8 := by
  simp [addVec, ha, hb]

theorem zeroVec_length : zeroVec.length = 8 := by simp [zeroVec]

theorem zeroVec_nonneg : ∀ x ∈ zeroVec, 0 ≤ x := by
  intro x hx
  rw [List.eq_of_mem_replicate hx]

theorem candidates_dec_eq (exs : List Example) : ∀ (subset : List Nat) (c : Candidate),
    c ∈ candidates exs subset → c.2.2 = impurityDecrease exs c.1 c.2.1 := by
  intro subset
  induction subset with
  | nil => intro c hc; simp [candidates] at hc
  | cons fi tl ih =>
    intro c hc
    have hsplit : candidates exs (fi :: tl) =
        ((candidateThresholds exs fi).map
          (fun thr => (fi, thr, impurityDecrease exs fi thr))) ++ candidates exs tl := rfl
    rw [hsplit] at hc
    rcases List.mem_append.mp hc with h | h
    · obtain ⟨thr, _, heq⟩ := List.mem_map.mp h
      subst heq
      rfl
    · exact ih c h

theorem foldl_pickBetter_mem : ∀ (cands : List Candidate) (acc : Option Candidate)
    (c : Candidate), cands.foldl pickBetter acc = some c → acc = some c ∨ c ∈ cands := by
  intro cands
  induction cands with
  | nil =>
    intro acc c h
    simp only [List.foldl_nil] at h
    exact Or.inl h
  | cons d tl ih =>
    intro acc c h
    rw [List.foldl_cons] at h
    rcases ih (pickBetter acc d) c h with h1 | h1
    · rcases acc with _ | b
      · have hd : d = c := by simpa [pickBetter] using h1
        subst hd
        exact Or.inr (List.mem_cons_self _ _)
      · by_cases hbet : betterSplit d b
        · rw [show pickBetter (some b) d = some d from by simp [pickBetter, hbet]] at h1
          have hd : d = c := by simpa using h1
          subst hd
          exact Or.inr (List.mem_cons_self _ _)
        · rw [show pickBetter (some b) d = some b from by simp [pickBetter, hbet]] at h1
          exact Or.inl h1
    · exact Or.inr (List.mem_cons_of_mem _ h1)

theorem bestSplit_mem {cands : List Candidate} {c : Candidate}
    (h : bestSplit cands = some c) : c ∈ cands := by
  rcases foldl_pickBetter_mem cands none c h with h1 | h1
  · exact absurd h1 (by simp)
  · exact h1

theorem shouldStop_false_len {exs : List Example} (hs : ¬shouldStop exs = true) :
    2 ≤ exs.length := by
  unfold shouldStop at hs
  simp only [Bool.or_eq_true, decide_eq_true_eq, not_or] at hs
  omega

theorem buildTree_imp_inv (fuel : Nat) :
    ∀ (totalN : Nat) (exs : List Example) (r : RandomSource),
      (buildTree fuel totalN exs r).2.1.length = 8 ∧
        ∀ x ∈ (buildTree fuel totalN exs r).2.1, 0 ≤ x := by
  induction fuel with
  | zero =>
    intro totalN exs r
    exact ⟨zeroVec_length, zeroVec_nonneg⟩
  | succ fuel ih =>
    intro totalN exs r
    by_cases hs : shouldStop exs
    · simp only [buildTree, hs, if_true]
      exact ⟨zeroVec_length, zeroVec_nonneg⟩
    · have hlen2 : 2 ≤ exs.length := shouldStop_false_len hs
      have hne : exs ≠ [] := by
        intro h; rw [h] at hlen2; simp at hlen2
      simp only [buildTree, hs, Bool.false_eq_true, if_false]
      rcases hb : bestSplit (candidates exs (featureSubset r).1) with _ | ⟨fi, thr, dec⟩
      · exact ⟨zeroVec_length, zeroVec_nonneg⟩
      · have hdec : 0 ≤ dec := by
          have hmem := bestSplit_mem hb
          have := candidates_dec_eq exs (featureSubset r).1 (fi, thr, dec) hmem
          simp only at this
          rw [this]
          exact impurityDecrease_nonneg exs fi thr hne
        by_cases he : (splitLeft exs fi thr).isEmpty || (splitRight exs fi thr).isEmpty
        · simp only [he, if_true]
          exact ⟨zeroVec_length, zeroVec_nonneg⟩
        · simp only [he, Bool.false_eq_true, if_false]
          obtain ⟨hL1, hL2⟩ := ih totalN (splitLeft exs fi thr) (featureSubset r).2
          obtain ⟨hR1, hR2⟩ := ih totalN (splitRight exs fi thr)
            (buildTree fuel totalN (splitLeft exs fi thr) (featureSubset r).2).2.2
          have hval : 0 ≤ dec * ((exs.length : ℚ)) / ((totalN : ℚ)) := by
            apply div_nonneg (mul_nonneg hdec (by positivity)) (by positivity)
          refine ⟨?_, ?_⟩
          · rw [bumpAt_length]
            exact addVec_length hL1 hR1
          · intro x hx
            rcases mem_bumpAt hx with h | h
            · exact addVec_nonneg _ _ hL2 hR2 x h
            · rw [h]
              exact add_nonneg (list_getD_nonneg _ (addVec_nonneg _ _ hL2 hR2) fi) hval

theorem trainLoop_imp_inv (features : List FeatureVec) (labels : List Label) :
    ∀ (k : Nat) (r : RandomSource),
      (trainLoop features labels k r).2.1.length = 8 ∧
        ∀ x ∈ (trainLoop features labels k r).2.1, 0 ≤ x := by
  intro k
  induction k with
  | zero => intro r; exact ⟨zeroVec_length, zeroVec_nonneg⟩
  | succ k ih =>
    intro r
    obtain ⟨hbL, hbN⟩ := buildTree_imp_inv 10 features.length
      (sampleExamples features labels
        (bootstrapIndices features.length features.length r).1)
      (bootstrapIndices features.length features.length r).2
    obtain ⟨hrL, hrN⟩ := ih (buildTree 10 features.length
      (sampleExamples features labels
        (bootstrapIndices features.length features.length r).1)
      (bootstrapIndices features.length features.length r).2).2.2
    exact ⟨addVec_length hbL hrL, addVec_nonneg _ _ hbN hrN⟩

theorem list_sum_nonneg_mem : ∀ (v : List ℚ), (∀ x ∈ v, 0 ≤ x) → 0 ≤ v.sum := by
  intro v
  induction v with
  | nil => intro _; simp
  | cons a l ih =>
    intro h
    simp only [List.sum_cons]
    exact add_nonneg (h a (by simp)) (ih (fun x hx => h x (by simp [hx])))

theorem list_sum_zero_all_zero : ∀ (v : List ℚ), (∀ x ∈ v, 0 ≤ x) → v.sum = 0 →
    ∀ x ∈ v, x = 0 := by
  intro v
  induction v with
  | nil => intro _ _ x hx; simp at hx
  | cons a l ih =>
    intro hnn hsum x hx
    have ha : 0 ≤ a := hnn a (by simp)
    have hl : 0 ≤ l.sum := list_sum_nonneg_mem l (fun y hy => hnn y (by simp [hy]))
    simp only [List.sum_cons] at hsum
    have ha0 : a = 0 := by linarith
    have hls : l.sum = 0 := by linarith
    rcases List.mem_cons.mp hx with h | h
    · rw [h, ha0]
    · exact ih (fun y hy => hnn y (by simp [hy])) hls x h

theorem sum_map_div (v : List ℚ) (s : ℚ) : (v.map (· / s)).sum = v.sum / s := by
  induction v with
  | nil => simp
  | cons a l ih => simp [ih, add_div]

theorem normalize_inv (v : List ℚ) (hlen : v.length = 8) (hnn : ∀ x ∈ v, 0 ≤ x) :
    (normalize v).length = 8 ∧ (∀ x ∈ normalize v, 0 ≤ x) ∧
      ((normalize v).sum = 1 ∨ normalize v = List.replicate 8 (0 : ℚ)) := by
  by_cases hz : v.sum = 0
  · have hid : normalize v = v := by simp [normalize, hz]
    refine ⟨by rw [hid, hlen], by rw [hid]; exact hnn, Or.inr ?_⟩
    rw [hid]
    have hall := list_sum_zero_all_zero v hnn hz
    exact List.eq_replicate_iff.mpr ⟨hlen, hall⟩
  · have hpos : 0 < v.sum := lt_of_le_of_ne (list_sum_nonneg_mem v hnn) (Ne.symm hz)
    have hnorm : normalize v = v.map (· / v.sum) := by simp [normalize, hz]
    refine ⟨by rw [hnorm]; simp [hlen], ?_, Or.inl ?_⟩
    · intro x hx
      rw [hnorm] at hx
      obtain ⟨y, hy, rfl⟩ := List.mem_map.mp hx
      exact div_nonneg (hnn y hy) hpos.le
    · rw [hnorm, sum_map_div, div_self hz]

theorem sum_zeroVec : zeroVec.sum = 0 := by
  simp [zeroVec]

theorem normalize_zeroVec : normalize zeroVec = zeroVec := by
  simp [normalize, sum_zeroVec]

theorem addVec_zero_zero : addVec zeroVec zeroVec = zeroVec := by
  norm_num [addVec, zeroVec, List.replicate_succ]

theorem buildTree_leaf_imp (fuel totalN : Nat) (exs : List Example) (r : RandomSource)
    (cc : Counts) (m : Label) (h : (buildTree fuel totalN exs r).1 = Tree.leaf cc m) :
    (buildTree fuel totalN exs r).2.1 = zeroVec := by
  rcases fuel with _ | fuel
  · rfl
  · by_cases hs : shouldStop exs
    · simp only [buildTree, hs, if_true]
    · simp only [buildTree, hs, Bool.false_eq_true, if_false] at h ⊢
      rcases hb : bestSplit (candidates exs (featureSubset r).1) with _ | ⟨fi, thr, dec⟩
      · rfl
      · rw [hb] at h
        by_cases he : (splitLeft exs fi thr).isEmpty || (splitRight exs fi thr).isEmpty
        · simp only [he, if_true]
        · simp only [he, Bool.false_eq_true, if_false] at h
          exact absurd h (by simp)

theorem trainLoop_leaves (features : List FeatureVec) (labels : List Label) :
    ∀ (k : Nat) (r : RandomSource),
      (∀ t ∈ (trainLoop features labels k r).1, ∃ cc m, t = Tree.leaf cc m) →
        (trainLoop features labels k r).2.1 = zeroVec := by
  intro k
  induction k with
  | zero => intro r _; rfl
  | succ k ih =>
    intro r hall
    obtain ⟨cc, m, hleaf⟩ := hall
      (buildTree 10 features.length
        (sampleExamples features labels
          (bootstrapIndices features.length features.length r).1)
        (bootstrapIndices features.length features.length r).2).1
      (List.mem_cons_self _ _)
    have hz1 := buildTree_leaf_imp 10 features.length
      (sampleExamples features labels
        (bootstrapIndices features.length features.length r).1)
      (bootstrapIndices features.length features.length r).2 cc m hleaf
    have hz2 := ih (buildTree 10 features.length
      (sampleExamples features labels
        (bootstrapIndices features.length features.length r).1)
      (bootstrapIndices features.length features.length r).2).2.2
      (fun t ht => hall t (List.mem_cons_of_mem _ ht))
    show addVec _ _ = zeroVec
    rw [hz1, hz2]
    exact addVec_zero_zero

/-- C4: `featureImportance` is the all-zero length-8 vector on an untrained
forest; after every successful `train` it has length 8, all entries
non-negative, and sums exactly to 1 (hence within tolerance 1e-6) unless it
is the all-zero vector; and in the degenerate case where every built tree is
a pure-root leaf it is exactly the all-zero vector. -/
theorem featureImportance_contract :
    (∀ n, (mkForest n).featureImportance = List.replicate 8 (0 : ℚ)) ∧
    ∀ (f : RandomForest) (features : List FeatureVec) (labels : List Label)
      (r : RandomSource) (f' : RandomForest),
      f.train features labels r = .ok f' →
        f'.featureImportance.length = 8 ∧
        (∀ x ∈ f'.featureImportance, 0 ≤ x) ∧
        (f'.featureImportance.sum = 1 ∨
          f'.featureImportance = List.replicate 8 (0 : ℚ)) ∧
        ((∀ t ∈ f'.trees, ∃ cc m, t = Tree.leaf cc m) →
          f'.featureImportance = List.replicate 8 (0 : ℚ)) := by
  refine ⟨fun n => rfl, ?_⟩
  intro f features labels r f' htr
  by_cases hv : validTrainingData features labels
  · have heq : f' = ⟨f.treeCount, (trainLoop features labels f.treeCount r).1,
        normalize (trainLoop features labels f.treeCount r).2.1⟩ := by
      unfold RandomForest.train at htr
      rw [if_pos hv] at htr
      exact (Except.ok.inj htr).symm
    obtain ⟨hL, hN⟩ := trainLoop_imp_inv features labels f.treeCount r
    obtain ⟨n1, n2, n3⟩ := normalize_inv _ hL hN
    subst heq
    refine ⟨n1, n2, n3, ?_⟩
    intro hleaves
    have htot := trainLoop_leaves features labels f.treeCount r hleaves
    show normalize (trainLoop features labels f.treeCount r).2.1 = _
    rw [htot, normalize_zeroVec]
    rfl
  · unfold RandomForest.train at htr
    rw [if_neg hv] at htr
    exact absurd htr (by simp)

/-- C8: determinism under seeding — two independent `train` runs on identical
data from the same seed produce identical forests, and the resulting forests
agree on `predict` and `predictProbability` for every input vector. -/
theorem train_deterministic_under_seed (seed : Nat) (f : RandomForest)
    (features : List FeatureVec) (labels : List Label) (f1 f2 : RandomForest)
    (h1 : f.train features labels ⟨seed⟩ = .ok f1)
    (h2 : f.train features labels ⟨seed⟩ = .ok f2) :
    f1 = f2 ∧ ∀ v, f1.predict v = f2.predict v ∧
      f1.predictProbability v = f2.predictProbability v := by
  have heq : f1 = f2 := by
    rw [h1] at h2
    exact Except.ok.inj h2
  subst heq
  exact ⟨rfl, fun v => ⟨rfl, rfl⟩⟩

theorem train_fixture_loop :
    trainLoop wFeatures wLabels (mkForest 1).treeCount ⟨0⟩ =
      ([Tree.leaf ⟨1, 0, 0⟩ 0], addVec zeroVec zeroVec, ⟨12345⟩) := rfl

theorem train_fixture_eq :
    (mkForest 1).train wFeatures wLabels ⟨0⟩ = .ok trainedForest := by
  have hv : validTrainingData wFeatures wLabels := by
    refine ⟨rfl, by norm_num [wFeatures], ?_⟩
    intro v hvv
    have hv8 : v = vec8 := by simpa [wFeatures] using hvv
    rw [hv8]
    simp [vec8]
  unfold RandomForest.train
  rw [if_pos hv]
  simp only [train_fixture_loop, addVec_zero_zero, normalize_zeroVec]
  rfl

/-- C8 witness: the deterministic fixture run, applied twice. -/
theorem train_deterministic_under_seed_witness :
    trainedForest = trainedForest ∧
      ∀ v, trainedForest.predict v = trainedForest.predict v ∧
        trainedForest.predictProbability v = trainedForest.predictProbability v :=
  train_deterministic_under_seed 0 (mkForest 1) wFeatures wLabels
    trainedForest trainedForest train_fixture_eq train_fixture_eq

/-- C4 witness: the fixture train run's importance vector satisfies the
invariant (here via the degenerate all-zero branch). -/
theorem featureImportance_contract_witness :
    trainedForest.featureImportance.length = 8 ∧
      (∀ x ∈ trainedForest.featureImportance, 0 ≤ x) ∧
      (trainedForest.featureImportance.sum = 1 ∨
        trainedForest.featureImportance = List.replicate 8 (0 : ℚ)) ∧
      ((∀ t ∈ trainedForest.trees, ∃ cc m, t = Tree.leaf cc m) →
        trainedForest.featureImportance = List.replicate 8 (0 : ℚ)) :=
  featureImportance_contract.2 (mkForest 1) wFeatures wLabels ⟨0⟩ trainedForest
    train_fixture_eq

end BioSafe
